import Mathlib

/-!
# Ordering of image tags in `pkg/tag/modified_semver.go`

A shallow embedding of `modifiedSemverCollection` (`Len`, `Less`, `Swap`) and of
`extractBaseAndSuffix`, together with the part of the semantic-version library
(`github.com/Masterminds/semver/v3`) that `Less` calls.

Conventions of the embedding:

* a Go `string` is a `List Char` (every string a parsed version can carry is ASCII);
* Go `int` results of `strconv.Atoi` are `Int`, with the 64-bit range check made
  explicit; `uint64` results of `strconv.ParseUint` are `Nat` below `2^64`;
* a run-time panic is the `Except.error` branch, carrying which panic it is;
* `log.Debugf` only writes a trace line and is left out.
-/

namespace ModifiedSemver

set_option maxRecDepth 100000

/-- A Go string, as its sequence of characters. -/
abbrev GoString := List Char

/-- The run-time panics the embedded code can raise. -/
inductive Panic where
  | indexOutOfRange
  | nilDereference
deriving DecidableEq, Repr

deriving instance DecidableEq for Except

/-! ## Character classes and `strings` / `strconv` helpers -/

/-- The class `[0-9]`. -/
def isNum (c : Char) : Bool := decide ('0' ≤ c) && decide (c ≤ '9')

/-- The class `[0-9A-Za-z\-]` (the library's `allowed` set). -/
def isAllowed (c : Char) : Bool :=
  isNum c || (decide ('A' ≤ c) && decide (c ≤ 'Z')) ||
    (decide ('a' ≤ c) && decide (c ≤ 'z')) || c == '-'

/-- Go `strings.Split(s, ".")`: the pieces between dots; one (empty) piece for
the empty string. -/
def splitDot : GoString → List GoString
  | [] => [[]]
  | c :: cs =>
    match splitDot cs with
    | [] => [[c]]
    | p :: ps => if c = '.' then [] :: p :: ps else (c :: p) :: ps

/-- Value of a character as a decimal digit. -/
def digitVal (c : Char) : Nat := c.toNat - '0'.toNat

/-- Decimal value of a digit string, most significant digit first. -/
def decimalValue (ds : GoString) : Nat :=
  ds.foldl (fun acc c => 10 * acc + digitVal c) 0

/-- Go `strconv.ParseUint(s, 10, 64)`: a non-empty string of decimal digits whose
value fits 64 bits. -/
def parseUint64 (s : GoString) : Option Nat :=
  if s.isEmpty then none
  else if s.all isNum then
    (if decimalValue s < 2 ^ 64 then some (decimalValue s) else none)
  else none

/-- The digits of `strconv.Atoi` after the sign has been read: a non-empty
string of decimal digits whose signed value lies in `[-2^63, 2^63 - 1]`. -/
def atoiDigits (neg : Bool) (digits : GoString) : Option Int :=
  if digits.isEmpty then none
  else if digits.all isNum then
    (if neg then
      (if decimalValue digits ≤ 2 ^ 63 then some (-(decimalValue digits : Int)) else none)
    else
      (if decimalValue digits < 2 ^ 63 then some (decimalValue digits : Int) else none))
  else none

/-- Go `strconv.Atoi(s)` on a 64-bit platform: an optional sign `+` or `-`
followed by decimal digits; `none` stands for a non-nil `err`. -/
def Atoi (s : GoString) : Option Int :=
  match s with
  | [] => none
  | c :: r =>
    if c = '-' then atoiDigits true r
    else if c = '+' then atoiDigits false r
    else atoiDigits false (c :: r)

/-! ## The semantic-version library used by `Less` -/

/-- Modelled from the spec: the parsed semantic version of §3 and §6. Its type
`semver.Version` belongs to the imported library
`github.com/Masterminds/semver/v3`, which `src/` does not contain; the fields
are those of that library: the three numeric components, the pre-release and
build-metadata texts, and the exact input text returned by `Original()`. -/
structure Version where
  major : Nat
  minor : Nat
  patch : Nat
  pre : GoString
  metadata : GoString
  original : GoString
deriving DecidableEq, Repr

/-- The accessor `Original()`. -/
def Version.Original (v : Version) : GoString := v.original

/-- One optional group `(\.[0-9]+)?` of the version pattern: the matched text
(with its dot) and the remaining input. -/
def optSegment (s : GoString) : GoString × GoString :=
  match s with
  | [] => ([], [])
  | c :: r =>
    if c = '.' then
      (if (r.takeWhile isNum).isEmpty then ([], c :: r)
       else (c :: r.takeWhile isNum, r.dropWhile isNum))
    else ([], c :: r)

/-- The body `[0-9A-Za-z\-]+(\.[0-9A-Za-z\-]+)*` of a pre-release or metadata
group: dot-separated identifiers, none of them empty. -/
def isIdentList (s : GoString) : Bool :=
  (splitDot s).all (fun p => !p.isEmpty && p.all isAllowed)

/-- One optional group `(<sep>(body))?` of the version pattern, for the separator
`-` or `+`: the body is the longest run of identifier characters and dots after
the separator. The result is `none` when the separator is there and the run is
not a well-formed body; the anchored pattern has no match then, because what
follows a shorter body would have to be `+` or the end of the text. -/
def optTail (sep : Char) (s : GoString) : Option (GoString × GoString) :=
  match s with
  | [] => some ([], [])
  | c :: r =>
    if c = sep then
      (if isIdentList (r.takeWhile (fun x => isAllowed x || x == '.')) then
        some (r.takeWhile (fun x => isAllowed x || x == '.'),
              r.dropWhile (fun x => isAllowed x || x == '.'))
      else none)
    else some ([], s)

/-- The library's `validatePrerelease`: a purely numeric identifier must not
have a leading zero. -/
def validatePrerelease (p : GoString) : Bool :=
  (splitDot p).all (fun part =>
    if part.all isNum then !(decide (1 < part.length) && part.head? == some '0')
    else part.all isAllowed)

/-- The library's `validateMetadata`. -/
def validateMetadata (m : GoString) : Bool :=
  (splitDot m).all (fun part => part.all isAllowed)

/-- The leading `v?` of the version pattern: the input after an optional `v`. -/
def stripV (v : GoString) : GoString :=
  match v with
  | [] => []
  | c :: r => if c = 'v' then r else c :: r

/-- The capture groups 1, 2, 3, 5 and 8 of the library's version pattern. -/
structure VersionMatch where
  m1 : GoString
  m2 : GoString
  m3 : GoString
  m5 : GoString
  m8 : GoString
deriving DecidableEq, Repr

/-- Modelled from the spec: the matching step of the parser of §6, which is
`versionRegex.FindStringSubmatch(v)` in the imported library (not part of
`src/`), for the anchored pattern
`^v?([0-9]+)(\.[0-9]+)?(\.[0-9]+)?(-(ID(\.ID)*))?(\+(ID(\.ID)*))?$`
with `ID = [0-9A-Za-z\-]+`; `none` when the pattern does not match. Every group
is followed by a character it cannot hold, so the greedy match is the only one. -/
def matchVersion (v : GoString) : Option VersionMatch :=
  if ((stripV v).takeWhile isNum).isEmpty then none
  else
    match optTail '-' (optSegment (optSegment ((stripV v).dropWhile isNum)).2).2 with
    | none => none
    | some (pre, s4) =>
      match optTail '+' s4 with
      | none => none
      | some (md, s5) =>
        if s5.isEmpty then
          some ⟨(stripV v).takeWhile isNum,
                (optSegment ((stripV v).dropWhile isNum)).1,
                (optSegment (optSegment ((stripV v).dropWhile isNum)).2).1,
                pre, md⟩
        else none

/-- The numeric value of an optional group `(\.[0-9]+)?`: 0 when the group is
empty, else `ParseUint` of the text after the dot. -/
def parseSegment (m : GoString) : Option Nat :=
  if m.isEmpty then some 0 else parseUint64 (m.drop 1)

/-- Modelled from the spec: the semantic-version parser `parse(text)` of §6,
which is `semver.NewVersion` of the imported library (not part of `src/`); the
steps follow that function: match the version pattern, read the three numbers
with `ParseUint` (an absent minor or patch is 0) and validate the pre-release
and metadata texts. `none` stands for the returned pair `(nil, err)`. -/
def NewVersion (v : GoString) : Option Version :=
  match matchVersion v with
  | none => none
  | some m =>
    match parseUint64 m.m1 with
    | none => none
    | some major =>
      match parseSegment m.m2 with
      | none => none
      | some minor =>
        match parseSegment m.m3 with
        | none => none
        | some patch =>
          if !m.m5.isEmpty && !validatePrerelease m.m5 then none
          else if !m.m8.isEmpty && !validateMetadata m.m8 then none
          else some ⟨major, minor, patch, m.m5, m.m8, v⟩

/-- The library's `compareSegment` on two `uint64` values. -/
def compareSegment (v o : Nat) : Int :=
  if v < o then -1 else if v > o then 1 else 0

/-- Byte-wise `s > o` on Go strings. -/
def strGt : GoString → GoString → Bool
  | [], _ => false
  | _ :: _, [] => true
  | a :: as, b :: bs =>
    if a.toNat > b.toNat then true
    else if a.toNat < b.toNat then false
    else strGt as bs

/-- The library's `comparePrePart` on two pre-release identifiers. -/
def comparePrePart (s o : GoString) : Int :=
  if s = o then 0
  else if s.isEmpty then (if !o.isEmpty then -1 else 1)
  else if o.isEmpty then (if !s.isEmpty then 1 else -1)
  else
    match parseUint64 o, parseUint64 s with
    | none, none => if strGt s o then 1 else -1
    | none, some _ => -1
    | some _, none => 1
    | some oi, some si => if si > oi then 1 else -1

/-- The loop of the library's `comparePrerelease`: `fuel` iterations remain and
`i` is the loop index; a missing part reads as the empty string. -/
def comparePrereleaseLoop (sparts oparts : List GoString) : Nat → Nat → Int
  | 0, _ => 0
  | fuel + 1, i =>
    let stemp := if i < sparts.length then sparts.getD i [] else []
    let otemp := if i < oparts.length then oparts.getD i [] else []
    let d := comparePrePart stemp otemp
    if d ≠ 0 then d else comparePrereleaseLoop sparts oparts fuel (i + 1)

/-- The library's `comparePrerelease`. -/
def comparePrerelease (v o : GoString) : Int :=
  let sparts := splitDot v
  let oparts := splitDot o
  let l := if oparts.length > sparts.length then oparts.length else sparts.length
  comparePrereleaseLoop sparts oparts l 0

/-- Modelled from the spec: the three-way `compare` of §6, the imported
library's `(*Version).Compare` on two non-nil versions (not part of `src/`):
major, minor, patch, then pre-release precedence; metadata is ignored. -/
def Version.Compare (v o : Version) : Int :=
  if compareSegment v.major o.major ≠ 0 then compareSegment v.major o.major
  else if compareSegment v.minor o.minor ≠ 0 then compareSegment v.minor o.minor
  else if compareSegment v.patch o.patch ≠ 0 then compareSegment v.patch o.patch
  else if v.pre.isEmpty && o.pre.isEmpty then 0
  else if v.pre.isEmpty then 1
  else if o.pre.isEmpty then -1
  else comparePrerelease v.pre o.pre

/-! ## `modified_semver.go` -/

/-- The type `modifiedSemverCollection`: a slice of (non-nil) versions. -/
abbrev modifiedSemverCollection := List Version

/-- The method `Len`. -/
def Len (s : modifiedSemverCollection) : Nat := s.length

/-- The call `re.FindStringSubmatch(version)` for the pattern
`^([^-]+)(?:-(.*))?`: groups 1 and 2, or `none` (a nil slice) without a match.
The pattern matches when the text is not empty and does not start with a hyphen:
group 1 is the text before the first hyphen, group 2 the text after that hyphen
up to the first line break (`.` does not match a line break), or the empty
string when there is no hyphen. -/
def findBaseAndSuffix (version : GoString) : Option (GoString × GoString) :=
  if (version.takeWhile (fun c => c != '-')).isEmpty then none
  else
    some (version.takeWhile (fun c => c != '-'),
      match version.dropWhile (fun c => c != '-') with
      | [] => []
      | _ :: rest => rest.takeWhile (fun c => c != '\n'))

/-- Lines 55 to 66 of `extractBaseAndSuffix`: the value of `suffixNum` for the
text `matches[2]`. -/
def suffixNumOf (matches2 : GoString) : Int :=
  if !matches2.isEmpty then
    (if (splitDot matches2).length > 1 then
      (match Atoi ((splitDot matches2).getLastD []) with
        | some num => num
        | none => 0)
    else 0)
  else 0

/-- The function `extractBaseAndSuffix`. Without a match `matches` is nil and
`matches[1]` panics; with one, `len(matches)` is 3. -/
def extractBaseAndSuffix (version : GoString) : Except Panic (GoString × Int) :=
  match findBaseAndSuffix version with
  | none => Except.error Panic.indexOutOfRange
  | some (matches1, matches2) => Except.ok (matches1, suffixNumOf matches2)

/-- The body of `Less` on the two addressed versions. A base that does not
parse leaves a nil pointer, and `Compare` on it panics. -/
def lessVersions (vi vj : Version) : Except Panic Bool :=
  match extractBaseAndSuffix vi.Original with
  | Except.error e => Except.error e
  | Except.ok (baseI, suffixNumI) =>
    match extractBaseAndSuffix vj.Original with
    | Except.error e => Except.error e
    | Except.ok (baseJ, suffixNumJ) =>
      match NewVersion baseI, NewVersion baseJ with
      | some baseVersionI, some baseVersionJ =>
        let comp := baseVersionI.Compare baseVersionJ
        if comp ≠ 0 then Except.ok (decide (comp < 0))
        else Except.ok (decide (suffixNumI < suffixNumJ))
      | _, _ => Except.error Panic.nilDereference

/-- The method `Less`. -/
def Less (s : modifiedSemverCollection) (i j : Nat) : Except Panic Bool :=
  match s.get? i, s.get? j with
  | some vi, some vj => lessVersions vi vj
  | _, _ => Except.error Panic.indexOutOfRange

/-- The method `Swap`. -/
def Swap (s : modifiedSemverCollection) (i j : Nat) :
    Except Panic modifiedSemverCollection :=
  match s.get? i, s.get? j with
  | some vi, some vj => Except.ok ((s.set i vj).set j vi)
  | _, _ => Except.error Panic.indexOutOfRange

/-! ## Sorting with `Less` -/

/-- Parsing a list of tag strings into a collection, as the callers of the sort do
with `semver.NewVersion`; `none` when one of the strings is rejected. -/
def parseAll : List GoString → Option modifiedSemverCollection
  | [] => some []
  | s :: ss =>
    match NewVersion s, parseAll ss with
    | some v, some vs => some (v :: vs)
    | _, _ => none

/-- The postcondition of the sort contract (§6): for all valid `i < j` in the
output, `!less(output[j], output[i])`. -/
def SortedUnderLess (out : modifiedSemverCollection) : Prop :=
  ∀ j, j < Len out → ∀ i, i < j → Less out j i = Except.ok false

instance (out : modifiedSemverCollection) : Decidable (SortedUnderLess out) := by
  unfold SortedUnderLess; infer_instance

/-- What a sort that meets the sortable-sequence contract may return on `input`:
a permutation of it that satisfies the postcondition. -/
def IsSortResult (input out : modifiedSemverCollection) : Prop :=
  out.Perm input ∧ SortedUnderLess out

/-- The strings of a collection, in order. -/
def originals (s : modifiedSemverCollection) : List GoString :=
  s.map Version.Original

/-- Go string literals. -/
def strs (l : List String) : List GoString := l.map String.toList

/-- The collection parsed from a list of tag strings, empty when one is rejected. -/
def forceParse (l : List GoString) : modifiedSemverCollection :=
  (parseAll l).getD []

/-! ## Vocabulary of the properties -/

/-- Byte-wise `a < b` on Go strings. -/
def strLt (a b : GoString) : Bool := strGt b a

/-- The order of two versions by major, minor and patch alone. -/
def coreLt (a b : Version) : Prop :=
  a.major < b.major ∨ (a.major = b.major ∧
    (a.minor < b.minor ∨ (a.minor = b.minor ∧ a.patch < b.patch)))

/-- Equality of major, minor and patch. -/
def coreEq (a b : Version) : Prop :=
  a.major = b.major ∧ a.minor = b.minor ∧ a.patch = b.patch

instance (a b : Version) : Decidable (coreLt a b) := by
  unfold coreLt; infer_instance

instance (a b : Version) : Decidable (coreEq a b) := by
  unfold coreEq; infer_instance

/-- The sort key that `Less` compares: major, minor and patch of the re-parsed
base, then the suffix number. -/
def keyLt (bI : Version) (nI : Int) (bJ : Version) (nJ : Int) : Prop :=
  coreLt bI bJ ∨ (coreEq bI bJ ∧ nI < nJ)

instance (bI : Version) (nI : Int) (bJ : Version) (nJ : Int) :
    Decidable (keyLt bI nI bJ nJ) := by
  unfold keyLt; infer_instance

/-- The text after the first hyphen of a version string (empty without one). -/
def textAfterFirstHyphen (version : GoString) : GoString :=
  (version.dropWhile (fun c => c != '-')).drop 1

/-- The last dot-separated token of a text: what follows its last dot, or the
whole text when it has no dot. -/
def lastToken (t : GoString) : GoString :=
  t.rtakeWhile (fun c => c != '.')

/-- The suffix number in the words of the specification: the integer value of
the last dot-separated token of the text after the first hyphen, 0 when that
token is not numeric (which covers the absent suffix). -/
def specSuffixNumber (version : GoString) : Int :=
  match Atoi (lastToken (textAfterFirstHyphen version)) with
  | some n => n
  | none => 0

/-! ## Lemmas on the parser and on `extractBaseAndSuffix` -/

theorem extractBaseAndSuffix_ok_iff {version base : GoString} {n : Int} :
    extractBaseAndSuffix version = Except.ok (base, n) ↔
      ∃ m2, findBaseAndSuffix version = some (base, m2) ∧ n = suffixNumOf m2 := by
  unfold extractBaseAndSuffix
  cases hf : findBaseAndSuffix version with
  | none => simp
  | some p =>
    obtain ⟨m1, m2⟩ := p
    simp only [Except.ok.injEq, Prod.mk.injEq, Option.some.injEq]
    constructor
    · rintro ⟨rfl, rfl⟩
      exact ⟨m2, ⟨rfl, rfl⟩, rfl⟩
    · rintro ⟨m, ⟨rfl, rfl⟩, rfl⟩
      exact ⟨rfl, rfl⟩

theorem findBaseAndSuffix_base {version base m2 : GoString}
    (h : findBaseAndSuffix version = some (base, m2)) :
    base = version.takeWhile (fun c => c != '-') := by
  unfold findBaseAndSuffix at h
  split_ifs at h
  simp only [Option.some.injEq, Prod.mk.injEq] at h
  exact h.1.symm

theorem hyphen_not_mem_base {version base : GoString} {n : Int}
    (h : extractBaseAndSuffix version = Except.ok (base, n)) : '-' ∉ base := by
  obtain ⟨m2, hf, -⟩ := extractBaseAndSuffix_ok_iff.1 h
  rw [findBaseAndSuffix_base hf]
  intro hm
  have := List.mem_takeWhile_imp hm
  simp at this

theorem stripV_subset (v : GoString) : stripV v ⊆ v := by
  unfold stripV
  cases v with
  | nil => exact fun _ h => h
  | cons c r =>
    simp only
    split_ifs
    · exact List.subset_cons_self _ _
    · exact fun _ h => h

theorem optSegment_snd_subset (s : GoString) : (optSegment s).2 ⊆ s := by
  unfold optSegment
  cases s with
  | nil => exact fun _ h => h
  | cons c r =>
    simp only
    split_ifs
    · exact fun _ h => h
    · intro x hx
      exact List.mem_cons_of_mem _ ((List.dropWhile_sublist _).subset hx)
    · exact fun _ h => h

theorem optTail_hyphen_of_not_mem {s : GoString} (h : '-' ∉ s) {pre rest : GoString}
    (ht : optTail '-' s = some (pre, rest)) : pre = [] := by
  unfold optTail at ht
  cases s with
  | nil => simp at ht; exact ht.1
  | cons c r =>
    have hc : c ≠ '-' := by
      rintro rfl
      exact h (List.mem_cons_self _ _)
    simp [hc] at ht
    exact ht.1

theorem matchVersion_m5_nil {b : GoString} {m : VersionMatch}
    (h : matchVersion b = some m) (hb : '-' ∉ b) : m.m5 = [] := by
  unfold matchVersion at h
  split_ifs at h
  cases ht : optTail '-' (optSegment (optSegment ((stripV b).dropWhile isNum)).2).2 with
  | none => simp [ht] at h
  | some p =>
    obtain ⟨pre, s4⟩ := p
    have hsub : (optSegment (optSegment ((stripV b).dropWhile isNum)).2).2 ⊆ b :=
      (optSegment_snd_subset _).trans ((optSegment_snd_subset _).trans
        ((List.dropWhile_sublist _).subset.trans (stripV_subset b)))
    have hp : pre = [] := optTail_hyphen_of_not_mem (fun hm => hb (hsub hm)) ht
    rw [ht] at h
    simp only at h
    cases ht2 : optTail '+' s4 with
    | none => simp [ht2] at h
    | some q =>
      obtain ⟨md, s5⟩ := q
      rw [ht2] at h
      simp only at h
      split_ifs at h
      simp only [Option.some.injEq] at h
      rw [← h]
      exact hp

theorem NewVersion_some {b : GoString} {v : Version} (h : NewVersion b = some v) :
    ∃ m, matchVersion b = some m ∧ parseUint64 m.m1 = some v.major ∧
      parseSegment m.m2 = some v.minor ∧ parseSegment m.m3 = some v.patch ∧
      v.pre = m.m5 ∧ v.metadata = m.m8 ∧ v.original = b := by
  unfold NewVersion at h
  cases hm : matchVersion b with
  | none => simp [hm] at h
  | some m =>
    rw [hm] at h
    simp only at h
    cases h1 : parseUint64 m.m1 with
    | none => simp [h1] at h
    | some major =>
      cases h2 : parseSegment m.m2 with
      | none => simp [h1, h2] at h
      | some minor =>
        cases h3 : parseSegment m.m3 with
        | none => simp [h1, h2, h3] at h
        | some patch =>
          rw [h1, h2, h3] at h
          simp only at h
          split_ifs at h
          simp only [Option.some.injEq] at h
          subst h
          exact ⟨m, rfl, h1, h2, h3, rfl, rfl, rfl⟩

theorem NewVersion_pre_nil {b : GoString} {v : Version}
    (h : NewVersion b = some v) (hb : '-' ∉ b) : v.pre = [] := by
  obtain ⟨m, hm, -, -, -, hpre, -, -⟩ := NewVersion_some h
  rw [hpre]
  exact matchVersion_m5_nil hm hb


theorem compareSegment_neg {v o : Nat} : compareSegment v o < 0 ↔ v < o := by
  unfold compareSegment; split_ifs <;> simp_all

theorem compareSegment_zero {v o : Nat} : compareSegment v o = 0 ↔ v = o := by
  unfold compareSegment; split_ifs <;> simp_all <;> omega

theorem compareSegment_of_lt {v o : Nat} (h : v < o) : compareSegment v o = -1 := by
  simp [compareSegment, h]

theorem compareSegment_of_gt {v o : Nat} (h : o < v) : compareSegment v o = 1 := by
  have h2 : ¬ v < o := by omega
  simp [compareSegment, h, h2]

theorem compareSegment_self (v : Nat) : compareSegment v v = 0 := by
  simp [compareSegment]

theorem Compare_of_coreLt {a b : Version} (h : coreLt a b) : a.Compare b = -1 := by
  unfold Version.Compare
  rcases h with h | ⟨h1, h | ⟨h2, h3⟩⟩
  · simp [compareSegment_of_lt h]
  · simp [h1, compareSegment_self, compareSegment_of_lt h]
  · simp [h1, h2, compareSegment_self, compareSegment_of_lt h3]

theorem Compare_of_coreGt {a b : Version} (h : coreLt b a) : a.Compare b = 1 := by
  unfold Version.Compare
  rcases h with h | ⟨h1, h | ⟨h2, h3⟩⟩
  · simp [compareSegment_of_gt h]
  · simp [h1, compareSegment_self, compareSegment_of_gt h]
  · simp [h1, h2, compareSegment_self, compareSegment_of_gt h3]

theorem coreLt_trichotomy (a b : Version) : coreLt a b ∨ coreEq a b ∨ coreLt b a := by
  unfold coreLt coreEq; omega

theorem Compare_of_coreEq_pre_nil {a b : Version} (h : coreEq a b)
    (ha : a.pre = []) (hb : b.pre = []) : a.Compare b = 0 := by
  obtain ⟨h1, h2, h3⟩ := h
  unfold Version.Compare
  simp [h1, h2, h3, ha, hb, compareSegment_self]

theorem Compare_neg_iff_of_pre_nil {a b : Version} (ha : a.pre = []) (hb : b.pre = []) :
    a.Compare b < 0 ↔ coreLt a b := by
  rcases coreLt_trichotomy a b with h | h | h
  · simp [Compare_of_coreLt h, h]
  · rw [Compare_of_coreEq_pre_nil h ha hb]
    unfold coreLt coreEq at *; omega
  · rw [Compare_of_coreGt h]
    unfold coreLt at *; omega

theorem Compare_zero_iff_of_pre_nil {a b : Version} (ha : a.pre = []) (hb : b.pre = []) :
    a.Compare b = 0 ↔ coreEq a b := by
  rcases coreLt_trichotomy a b with h | h | h
  · rw [Compare_of_coreLt h]
    unfold coreLt coreEq at *; omega
  · simp [Compare_of_coreEq_pre_nil h ha hb, h]
  · rw [Compare_of_coreGt h]
    unfold coreLt coreEq at *; omega

theorem lessVersions_ok_iff {vi vj : Version} {r : Bool} :
    lessVersions vi vj = Except.ok r ↔
      ∃ baseI suffixNumI baseJ suffixNumJ baseVersionI baseVersionJ,
        extractBaseAndSuffix vi.Original = Except.ok (baseI, suffixNumI) ∧
        extractBaseAndSuffix vj.Original = Except.ok (baseJ, suffixNumJ) ∧
        NewVersion baseI = some baseVersionI ∧ NewVersion baseJ = some baseVersionJ ∧
        r = (if baseVersionI.Compare baseVersionJ ≠ 0
              then decide (baseVersionI.Compare baseVersionJ < 0)
              else decide (suffixNumI < suffixNumJ)) := by
  unfold lessVersions
  cases hi : extractBaseAndSuffix vi.Original with
  | error e => simp
  | ok p =>
    obtain ⟨bi, ni⟩ := p
    cases hj : extractBaseAndSuffix vj.Original with
    | error e => simp
    | ok q =>
      obtain ⟨bj, nj⟩ := q
      cases hvi : NewVersion bi with
      | none => simp [hvi]
      | some wi =>
        cases hvj : NewVersion bj with
        | none => simp [hvi, hvj]
        | some wj =>
          simp only [hvi, hvj, Except.ok.injEq, Prod.mk.injEq]
          constructor
          · intro h
            refine ⟨bi, ni, bj, nj, wi, wj, ⟨rfl, rfl⟩, ⟨rfl, rfl⟩, hvi, hvj, ?_⟩
            split_ifs at h ⊢ <;>
            · simp only [Except.ok.injEq] at h
              exact h.symm
          · rintro ⟨bi', ni', bj', nj', wi', wj', ⟨rfl, rfl⟩, ⟨rfl, rfl⟩, h1, h2, rfl⟩
            rw [hvi] at h1; rw [hvj] at h2
            simp only [Option.some.injEq] at h1 h2
            subst h1; subst h2
            split_ifs <;> rfl


/-! ### The base of a parsed version keeps its major, minor and patch -/

theorem takeWhile_takeWhile_of_imp {p q : Char → Bool} (h : ∀ c, q c = true → p c = true)
    (s : GoString) : (s.takeWhile p).takeWhile q = s.takeWhile q := by
  induction s with
  | nil => rfl
  | cons c r ih =>
    by_cases hq : q c = true
    · simp [List.takeWhile_cons, h c hq, hq, ih]
    · by_cases hp : p c = true
      · simp [List.takeWhile_cons, hp, hq]
      · simp [List.takeWhile_cons, hp, hq]

theorem dropWhile_takeWhile_of_imp {p q : Char → Bool} (h : ∀ c, q c = true → p c = true)
    (s : GoString) : (s.takeWhile p).dropWhile q = (s.dropWhile q).takeWhile p := by
  induction s with
  | nil => rfl
  | cons c r ih =>
    by_cases hq : q c = true
    · simp [List.takeWhile_cons, List.dropWhile_cons, h c hq, hq, ih]
    · by_cases hp : p c = true
      · simp [List.takeWhile_cons, List.dropWhile_cons, hp, hq]
      · simp [List.takeWhile_cons, List.dropWhile_cons, hp, hq]

theorem isNum_ne_hyphen (c : Char) (h : isNum c = true) : (c != '-') = true := by
  have : c ≠ '-' := by
    rintro rfl
    exact absurd h (by decide)
  simpa using this

theorem stripV_takeWhile (s : GoString) :
    stripV (s.takeWhile (fun c => c != '-')) = (stripV s).takeWhile (fun c => c != '-') := by
  cases s with
  | nil => rfl
  | cons c r =>
    by_cases hc : c = 'v'
    · subst hc
      simp [stripV, List.takeWhile_cons]
    · by_cases hh : c = '-'
      · subst hh
        simp [stripV, List.takeWhile_cons]
      · simp [stripV, List.takeWhile_cons, hc, hh]

theorem optSegment_takeWhile (s : GoString) :
    optSegment (s.takeWhile (fun c => c != '-')) =
      ((optSegment s).1, (optSegment s).2.takeWhile (fun c => c != '-')) := by
  cases s with
  | nil => rfl
  | cons c r =>
    by_cases hc : c = '.'
    · subst hc
      have h1 := takeWhile_takeWhile_of_imp isNum_ne_hyphen r
      have h2 := dropWhile_takeWhile_of_imp isNum_ne_hyphen r
      by_cases he : (r.takeWhile isNum).isEmpty = true
      · simp [optSegment, List.takeWhile_cons, h1, he]
      · simp [optSegment, List.takeWhile_cons, h1, h2, he]
    · by_cases hh : c = '-'
      · subst hh
        simp [optSegment, List.takeWhile_cons]
      · simp [optSegment, List.takeWhile_cons, hc, hh]

theorem matchVersion_base {orig : GoString} {m mb : VersionMatch}
    (h : matchVersion orig = some m)
    (hb : matchVersion (orig.takeWhile (fun c => c != '-')) = some mb) :
    mb.m1 = m.m1 ∧ mb.m2 = m.m2 ∧ mb.m3 = m.m3 := by
  have e1 : (stripV (orig.takeWhile (fun c => c != '-'))).takeWhile isNum =
      (stripV orig).takeWhile isNum := by
    rw [stripV_takeWhile, takeWhile_takeWhile_of_imp isNum_ne_hyphen]
  have e2 : (stripV (orig.takeWhile (fun c => c != '-'))).dropWhile isNum =
      ((stripV orig).dropWhile isNum).takeWhile (fun c => c != '-') := by
    rw [stripV_takeWhile, dropWhile_takeWhile_of_imp isNum_ne_hyphen]
  unfold matchVersion at h hb
  rw [e1, e2, optSegment_takeWhile] at hb
  simp only [optSegment_takeWhile] at hb
  split_ifs at h hb
  cases ht : optTail '-' (optSegment (optSegment ((stripV orig).dropWhile isNum)).2).2 with
  | none => simp [ht] at h
  | some p =>
    obtain ⟨pre, s4⟩ := p
    rw [ht] at h
    simp only at h
    cases ht2 : optTail '+' s4 with
    | none => simp [ht2] at h
    | some q =>
      obtain ⟨md, s5⟩ := q
      rw [ht2] at h
      simp only at h
      split_ifs at h
      simp only [Option.some.injEq] at h
      subst h
      cases hu : optTail '-' ((optSegment (optSegment
          ((stripV orig).dropWhile isNum)).2).2.takeWhile (fun c => c != '-')) with
      | none => simp [hu] at hb
      | some p' =>
        obtain ⟨pre', s4'⟩ := p'
        rw [hu] at hb
        simp only at hb
        cases hu2 : optTail '+' s4' with
        | none => simp [hu2] at hb
        | some q' =>
          obtain ⟨md', s5'⟩ := q'
          rw [hu2] at hb
          simp only at hb
          split_ifs at hb
          simp only [Option.some.injEq] at hb
          subst hb
          exact ⟨rfl, rfl, rfl⟩

theorem base_core_eq {orig base : GoString} {n : Int} {v w : Version}
    (hv : NewVersion orig = some v)
    (he : extractBaseAndSuffix orig = Except.ok (base, n))
    (hw : NewVersion base = some w) : coreEq w v := by
  obtain ⟨m2, hf, -⟩ := extractBaseAndSuffix_ok_iff.1 he
  have hbase := findBaseAndSuffix_base hf
  subst hbase
  obtain ⟨m, hm, h1, h2, h3, -⟩ := NewVersion_some hv
  obtain ⟨mb, hmb, g1, g2, g3, -⟩ := NewVersion_some hw
  obtain ⟨e1, e2, e3⟩ := matchVersion_base hm hmb
  rw [e1] at g1; rw [e2] at g2; rw [e3] at g3
  rw [h1] at g1; rw [h2] at g2; rw [h3] at g3
  simp only [Option.some.injEq] at g1 g2 g3
  exact ⟨g1.symm, g2.symm, g3.symm⟩


/-! ## Lemmas on `strings.Split` and the last token -/

theorem splitDot_ne_nil (s : GoString) : splitDot s ≠ [] := by
  cases s with
  | nil => simp [splitDot]
  | cons c cs =>
    unfold splitDot
    split
    · simp
    · split_ifs <;> simp

theorem splitDot_of_not_mem {s : GoString} (h : '.' ∉ s) : splitDot s = [s] := by
  induction s with
  | nil => rfl
  | cons c cs ih =>
    have hc : c ≠ '.' := fun e => h (e ▸ List.mem_cons_self _ _)
    have hcs : '.' ∉ cs := fun e => h (List.mem_cons_of_mem _ e)
    unfold splitDot
    rw [ih hcs]
    simp [hc]

theorem splitDot_append_dot (a b : GoString) :
    splitDot (a ++ '.' :: b) = splitDot a ++ splitDot b := by
  induction a with
  | nil =>
    obtain ⟨p, ps, hp⟩ := List.exists_cons_of_ne_nil (splitDot_ne_nil b)
    simp [splitDot, hp]
  | cons c cs ih =>
    obtain ⟨p, ps, hp⟩ := List.exists_cons_of_ne_nil (splitDot_ne_nil cs)
    obtain ⟨q, qs, hq⟩ := List.exists_cons_of_ne_nil (splitDot_ne_nil b)
    simp only [List.cons_append]
    rw [splitDot, ih, hp]
    conv_rhs => rw [splitDot, hp]
    simp only [List.cons_append]
    split_ifs <;> rfl

theorem exists_last_dot {s : GoString} (h : '.' ∈ s) :
    ∃ a b, s = a ++ '.' :: b ∧ '.' ∉ b := by
  induction s with
  | nil => simp at h
  | cons c cs ih =>
    by_cases hcs : '.' ∈ cs
    · obtain ⟨a, b, hab, hb⟩ := ih hcs
      exact ⟨c :: a, b, by rw [hab]; rfl, hb⟩
    · have hc : c = '.' := by
        rcases List.mem_cons.1 h with e | e
        · exact e.symm
        · exact absurd e hcs
      exact ⟨[], cs, by rw [hc]; rfl, hcs⟩

theorem lastToken_append_dot {a b : GoString} (hb : '.' ∉ b) :
    lastToken (a ++ '.' :: b) = b := by
  unfold lastToken List.rtakeWhile
  have hall : ∀ x ∈ b.reverse, (fun c : Char => c != '.') x = true := by
    intro x hx
    have : x ≠ '.' := fun e => hb (e ▸ List.mem_reverse.1 hx)
    simpa using this
  simp only [List.reverse_append, List.reverse_cons, List.append_assoc, List.singleton_append]
  rw [List.takeWhile_append_of_pos hall]
  simp [List.takeWhile_cons]

theorem lastToken_of_not_mem {b : GoString} (hb : '.' ∉ b) : lastToken b = b := by
  unfold lastToken List.rtakeWhile
  have hall : ∀ x ∈ b.reverse, (fun c : Char => c != '.') x = true := by
    intro x hx
    have : x ≠ '.' := fun e => hb (e ▸ List.mem_reverse.1 hx)
    simpa using this
  rw [List.takeWhile_eq_self_iff.2 hall, List.reverse_reverse]

theorem splitDot_length_gt_one_iff (s : GoString) : (splitDot s).length > 1 ↔ '.' ∈ s := by
  constructor
  · intro h
    by_contra hn
    rw [splitDot_of_not_mem hn] at h
    simp at h
  · intro h
    obtain ⟨a, b, rfl, -⟩ := exists_last_dot h
    rw [splitDot_append_dot, List.length_append]
    have h1 := List.length_pos.2 (splitDot_ne_nil a)
    have h2 := List.length_pos.2 (splitDot_ne_nil b)
    omega

theorem splitDot_getLastD (s : GoString) : (splitDot s).getLastD [] = lastToken s := by
  by_cases h : '.' ∈ s
  · obtain ⟨a, b, rfl, hb⟩ := exists_last_dot h
    rw [splitDot_append_dot, lastToken_append_dot hb, splitDot_of_not_mem hb]
    rw [List.getLastD_eq_getLast?, List.getLast?_append]
    simp
  · rw [splitDot_of_not_mem h, lastToken_of_not_mem h]
    rfl

theorem suffixNumOf_eq (t : GoString) :
    suffixNumOf t = if '.' ∈ t then
      (match Atoi (lastToken t) with
        | some n => n
        | none => 0) else 0 := by
  unfold suffixNumOf
  by_cases h : '.' ∈ t
  · have hne : t.isEmpty = false := by
      cases t with
      | nil => simp at h
      | cons _ _ => rfl
    have hl := (splitDot_length_gt_one_iff t).2 h
    simp only [hne, Bool.not_false, if_true, hl, h, splitDot_getLastD]
  · have hl : ¬ (splitDot t).length > 1 := fun e => h ((splitDot_length_gt_one_iff t).1 e)
    simp only [hl, h, if_false, ite_self]

theorem findBaseAndSuffix_of_no_newline {version : GoString}
    (hne : version ≠ []) (hh : version.head? ≠ some '-') (hnl : '\n' ∉ version) :
    findBaseAndSuffix version =
      some (version.takeWhile (fun c => c != '-'), textAfterFirstHyphen version) := by
  unfold findBaseAndSuffix textAfterFirstHyphen
  have h1 : (version.takeWhile (fun c => c != '-')).isEmpty = false := by
    cases version with
    | nil => exact absurd rfl hne
    | cons c r =>
      have hc : c ≠ '-' := by
        intro e
        apply hh
        simp [e]
      simp [List.takeWhile_cons, hc]
  rw [h1]
  simp only [Bool.false_eq_true, if_false, Option.some.injEq, Prod.mk.injEq, true_and]
  cases hd : version.dropWhile (fun c => c != '-') with
  | nil => rfl
  | cons c rest =>
    simp only [List.drop_one, List.tail_cons]
    apply List.takeWhile_eq_self_iff.2
    intro x hx
    have hxv : x ∈ version :=
      (List.dropWhile_sublist _).subset (hd ▸ List.mem_cons_of_mem _ hx)
    have : x ≠ '\n' := fun e => hnl (e ▸ hxv)
    simpa using this


/-! ## Lemmas on `Less` -/

theorem forceParse_of_parseAll {l : List GoString} {input : modifiedSemverCollection}
    (h : parseAll l = some input) : input = forceParse l := by
  simp [forceParse, h]

theorem Less_eq_lessVersions {s : modifiedSemverCollection} {i j : Nat} {vi vj : Version}
    (hi : s.get? i = some vi) (hj : s.get? j = some vj) :
    Less s i j = lessVersions vi vj := by
  unfold Less
  rw [hi, hj]

theorem Less_ok_iff {s : modifiedSemverCollection} {i j : Nat} {r : Bool} :
    Less s i j = Except.ok r ↔
      ∃ vi vj, s.get? i = some vi ∧ s.get? j = some vj ∧ lessVersions vi vj = Except.ok r := by
  unfold Less
  cases hi : s.get? i with
  | none => simp
  | some vi =>
    cases hj : s.get? j with
    | none => simp
    | some vj => simp

theorem lessVersions_of_bases {vi vj : Version} {baseI baseJ : GoString} {nI nJ : Int}
    {bI bJ : Version}
    (ei : extractBaseAndSuffix vi.Original = Except.ok (baseI, nI))
    (ej : extractBaseAndSuffix vj.Original = Except.ok (baseJ, nJ))
    (hbI : NewVersion baseI = some bI) (hbJ : NewVersion baseJ = some bJ) :
    lessVersions vi vj = Except.ok (if bI.Compare bJ ≠ 0 then decide (bI.Compare bJ < 0)
      else decide (nI < nJ)) :=
  lessVersions_ok_iff.2 ⟨baseI, nI, baseJ, nJ, bI, bJ, ei, ej, hbI, hbJ, rfl⟩

theorem lessVersions_true_iff {vi vj : Version} :
    lessVersions vi vj = Except.ok true ↔
      ∃ baseI nI baseJ nJ bI bJ,
        extractBaseAndSuffix vi.Original = Except.ok (baseI, nI) ∧
        extractBaseAndSuffix vj.Original = Except.ok (baseJ, nJ) ∧
        NewVersion baseI = some bI ∧ NewVersion baseJ = some bJ ∧ keyLt bI nI bJ nJ := by
  rw [lessVersions_ok_iff]
  constructor
  · rintro ⟨baseI, nI, baseJ, nJ, bI, bJ, ei, ej, hbI, hbJ, h⟩
    refine ⟨baseI, nI, baseJ, nJ, bI, bJ, ei, ej, hbI, hbJ, ?_⟩
    have pI := NewVersion_pre_nil hbI (hyphen_not_mem_base ei)
    have pJ := NewVersion_pre_nil hbJ (hyphen_not_mem_base ej)
    by_cases hc : bI.Compare bJ ≠ 0
    · rw [if_pos hc] at h
      left
      exact (Compare_neg_iff_of_pre_nil pI pJ).1 (of_decide_eq_true h.symm)
    · rw [if_neg hc] at h
      right
      exact ⟨(Compare_zero_iff_of_pre_nil pI pJ).1 (not_not.1 hc), of_decide_eq_true h.symm⟩
  · rintro ⟨baseI, nI, baseJ, nJ, bI, bJ, ei, ej, hbI, hbJ, h⟩
    refine ⟨baseI, nI, baseJ, nJ, bI, bJ, ei, ej, hbI, hbJ, ?_⟩
    have pI := NewVersion_pre_nil hbI (hyphen_not_mem_base ei)
    have pJ := NewVersion_pre_nil hbJ (hyphen_not_mem_base ej)
    rcases h with h | ⟨h1, h2⟩
    · have hc : bI.Compare bJ ≠ 0 := by rw [Compare_of_coreLt h]; decide
      rw [if_pos hc, Compare_of_coreLt h]
      rfl
    · have hc : ¬ bI.Compare bJ ≠ 0 := not_not.2 (Compare_of_coreEq_pre_nil h1 pI pJ)
      rw [if_neg hc]
      exact (decide_eq_true h2).symm

theorem keyLt_trans {a b c : Version} {na nb nc : Int}
    (h1 : keyLt a na b nb) (h2 : keyLt b nb c nc) : keyLt a na c nc := by
  unfold keyLt coreLt coreEq at *
  omega

theorem keyLt_asymm {a b : Version} {na nb : Int}
    (h1 : keyLt a na b nb) : ¬ keyLt b nb a na := by
  unfold keyLt coreLt coreEq at *
  omega


theorem Compare_zero_imp_coreEq {a b : Version} (h : a.Compare b = 0) : coreEq a b := by
  rcases coreLt_trichotomy a b with hl | he | hg
  · rw [Compare_of_coreLt hl] at h
    exact absurd h (by decide)
  · exact he
  · rw [Compare_of_coreGt hg] at h
    exact absurd h (by decide)

theorem coreLt_congr {a b a' b' : Version} (ha : coreEq a' a) (hb : coreEq b' b) :
    coreLt a' b' ↔ coreLt a b := by
  unfold coreLt coreEq at *
  omega

theorem coreEq_congr {a b a' b' : Version} (ha : coreEq a' a) (hb : coreEq b' b) :
    coreEq a' b' ↔ coreEq a b := by
  unfold coreEq at *
  omega

theorem Less_of_bases {s : modifiedSemverCollection} {i j : Nat} {vi vj : Version}
    {baseI baseJ : GoString} {nI nJ : Int} {bI bJ : Version}
    (hi : s.get? i = some vi) (hj : s.get? j = some vj)
    (ei : extractBaseAndSuffix vi.Original = Except.ok (baseI, nI))
    (ej : extractBaseAndSuffix vj.Original = Except.ok (baseJ, nJ))
    (hbI : NewVersion baseI = some bI) (hbJ : NewVersion baseJ = some bJ) :
    Less s i j = Except.ok (if bI.Compare bJ ≠ 0 then decide (bI.Compare bJ < 0)
      else decide (nI < nJ)) := by
  rw [Less_eq_lessVersions hi hj]
  exact lessVersions_of_bases ei ej hbI hbJ

theorem mem_permutations_of_sort_result {input out : modifiedSemverCollection}
    (h : IsSortResult input out) : out ∈ input.permutations' :=
  List.mem_permutations'.2 h.1

theorem scenario_sorted_permutations :
    ∀ out ∈ (forceParse (strs ["1.2.0", "1.2.0-beta.3", "1.2.0-beta.10", "1.1.9"])).permutations',
      SortedUnderLess out →
        originals out = strs ["1.1.9", "1.2.0", "1.2.0-beta.3", "1.2.0-beta.10"] := by
  decide

theorem rc_sorted_permutations :
    ∀ out ∈ (forceParse (strs ["1.0.0-rc.2", "1.0.0-rc.10", "1.0.0-rc.1"])).permutations',
      SortedUnderLess out →
        originals out = strs ["1.0.0-rc.1", "1.0.0-rc.2", "1.0.0-rc.10"] := by
  decide

/-! ## The claims -/

/-- C1 (as amended). Sorting the parsed versions `1.2.0`, `1.2.0-beta.3`,
`1.2.0-beta.10`, `1.1.9` under `Less`, with any sort that meets the
sortable-sequence contract, yields exactly `1.1.9`, `1.2.0`, `1.2.0-beta.3`,
`1.2.0-beta.10`: the form without suffix has suffix number 0 and comes before
the suffixed forms of the same base. -/
theorem scenario_sort_result (input out : modifiedSemverCollection)
    (hin : parseAll (strs ["1.2.0", "1.2.0-beta.3", "1.2.0-beta.10", "1.1.9"]) = some input)
    (hout : IsSortResult input out) :
    originals out = strs ["1.1.9", "1.2.0", "1.2.0-beta.3", "1.2.0-beta.10"] := by
  have hi := forceParse_of_parseAll hin
  subst hi
  exact scenario_sorted_permutations out (mem_permutations_of_sort_result hout) hout.2

/-- C1, witness: the four tags parse, and the sorted sequence is a sort result. -/
theorem scenario_sort_result_witness :
    originals (forceParse (strs ["1.1.9", "1.2.0", "1.2.0-beta.3", "1.2.0-beta.10"])) =
      strs ["1.1.9", "1.2.0", "1.2.0-beta.3", "1.2.0-beta.10"] :=
  scenario_sort_result
    (forceParse (strs ["1.2.0", "1.2.0-beta.3", "1.2.0-beta.10", "1.1.9"]))
    (forceParse (strs ["1.1.9", "1.2.0", "1.2.0-beta.3", "1.2.0-beta.10"]))
    (by decide) ⟨by decide, by decide⟩

/-- C1, counterexample: the order `1.1.9`, `1.2.0-beta.3`, `1.2.0-beta.10`, `1.2.0`
expected by the specification is not what a sort under `Less` yields. -/
theorem scenario_spec_order_refuted :
    ¬ ∀ input out : modifiedSemverCollection,
      parseAll (strs ["1.2.0", "1.2.0-beta.3", "1.2.0-beta.10", "1.1.9"]) = some input →
      IsSortResult input out →
      originals out = strs ["1.1.9", "1.2.0-beta.3", "1.2.0-beta.10", "1.2.0"] := by
  intro h
  have h1 := h (forceParse (strs ["1.2.0", "1.2.0-beta.3", "1.2.0-beta.10", "1.1.9"]))
    (forceParse (strs ["1.1.9", "1.2.0", "1.2.0-beta.3", "1.2.0-beta.10"]))
    (by decide) ⟨by decide, by decide⟩
  revert h1
  decide


/-- C2 (as amended). For every pair of versions accepted by the semver parser
whose bases parse: when the two differ in major, minor or patch, `Less(i, j)`
is true iff the full semver comparison is negative; when they agree in major,
minor and patch, the pre-release precedence is not consulted and `Less(i, j)`
is true iff the suffix number of `i` is below that of `j`. -/
theorem Less_agrees_with_semver_on_core (s : modifiedSemverCollection) (i j : Nat)
    (vi vj : Version) (baseI baseJ : GoString) (nI nJ : Int) (bI bJ : Version)
    (hi : s.get? i = some vi) (hj : s.get? j = some vj)
    (pi : NewVersion vi.Original = some vi) (pj : NewVersion vj.Original = some vj)
    (ei : extractBaseAndSuffix vi.Original = Except.ok (baseI, nI))
    (ej : extractBaseAndSuffix vj.Original = Except.ok (baseJ, nJ))
    (hbI : NewVersion baseI = some bI) (hbJ : NewVersion baseJ = some bJ) :
    (¬ coreEq vi vj → Less s i j = Except.ok (decide (vi.Compare vj < 0))) ∧
    (coreEq vi vj → Less s i j = Except.ok (decide (nI < nJ))) := by
  have cI := base_core_eq pi ei hbI
  have cJ := base_core_eq pj ej hbJ
  have pI := NewVersion_pre_nil hbI (hyphen_not_mem_base ei)
  have pJ := NewVersion_pre_nil hbJ (hyphen_not_mem_base ej)
  rw [Less_of_bases hi hj ei ej hbI hbJ]
  constructor
  · intro hne
    rcases coreLt_trichotomy vi vj with hl | he | hg
    · have hl' := (coreLt_congr cI cJ).2 hl
      rw [Compare_of_coreLt hl, Compare_of_coreLt hl']
      rfl
    · exact absurd he hne
    · have hg' := (coreLt_congr cJ cI).2 hg
      rw [Compare_of_coreGt hg, Compare_of_coreGt hg']
      rfl
  · intro he
    have he' := (coreEq_congr cI cJ).2 he
    rw [Compare_of_coreEq_pre_nil he' pI pJ]
    rfl

/-- C2, witness: `1.0.0-alpha` against `1.1.0` (different minor) and against
`1.0.0` (same major, minor, patch). -/
theorem Less_agrees_with_semver_on_core_witness :
    Less (forceParse (strs ["1.0.0-alpha", "1.1.0"])) 0 1 = Except.ok true ∧
    Less (forceParse (strs ["1.0.0-alpha", "1.0.0"])) 0 1 = Except.ok false :=
  ⟨(Less_agrees_with_semver_on_core (forceParse (strs ["1.0.0-alpha", "1.1.0"])) 0 1
      ⟨1, 0, 0, "alpha".toList, [], "1.0.0-alpha".toList⟩ ⟨1, 1, 0, [], [], "1.1.0".toList⟩
      "1.0.0".toList "1.1.0".toList 0 0
      ⟨1, 0, 0, [], [], "1.0.0".toList⟩ ⟨1, 1, 0, [], [], "1.1.0".toList⟩
      (by decide) (by decide) (by decide) (by decide) (by decide) (by decide)
      (by decide) (by decide)).1 (by decide),
   (Less_agrees_with_semver_on_core (forceParse (strs ["1.0.0-alpha", "1.0.0"])) 0 1
      ⟨1, 0, 0, "alpha".toList, [], "1.0.0-alpha".toList⟩ ⟨1, 0, 0, [], [], "1.0.0".toList⟩
      "1.0.0".toList "1.0.0".toList 0 0
      ⟨1, 0, 0, [], [], "1.0.0".toList⟩ ⟨1, 0, 0, [], [], "1.0.0".toList⟩
      (by decide) (by decide) (by decide) (by decide) (by decide) (by decide)
      (by decide) (by decide)).2 (by decide)⟩

/-- C2, counterexample: `1.0.0-alpha` is below `1.0.0` under semver comparison
(the comparison is -1, not zero), yet `Less` does not put it first. -/
theorem Less_not_semver_refinement :
    ¬ ∀ (s : modifiedSemverCollection) (i j : Nat) (vi vj : Version),
      s.get? i = some vi → s.get? j = some vj →
      NewVersion vi.Original = some vi → NewVersion vj.Original = some vj →
      vi.Compare vj ≠ 0 →
      (Less s i j = Except.ok true ↔ vi.Compare vj < 0) := by
  intro h
  have h1 := h (forceParse (strs ["1.0.0-alpha", "1.0.0"])) 0 1
    ⟨1, 0, 0, "alpha".toList, [], "1.0.0-alpha".toList⟩ ⟨1, 0, 0, [], [], "1.0.0".toList⟩
    (by decide) (by decide) (by decide) (by decide) (by decide)
  revert h1
  decide

/-- C3, at the failing input: the parsed tags `1.0.0-alpha` and `1.0.0-beta` are
not ordered by `Less` in either direction although their strings differ, so both
orders of the pair are results of a sort that meets the contract. -/
theorem sort_not_deterministic :
    ∃ a b : Version,
      parseAll (strs ["1.0.0-alpha", "1.0.0-beta"]) = some [a, b] ∧
      Less [a, b] 0 1 = Except.ok false ∧ Less [a, b] 1 0 = Except.ok false ∧
      a.Original ≠ b.Original ∧
      IsSortResult [a, b] [a, b] ∧ IsSortResult [a, b] [b, a] ∧
      originals [a, b] ≠ originals [b, a] :=
  ⟨⟨1, 0, 0, "alpha".toList, [], "1.0.0-alpha".toList⟩,
   ⟨1, 0, 0, "beta".toList, [], "1.0.0-beta".toList⟩,
   by decide, by decide, by decide, by decide, ⟨by decide, by decide⟩,
   ⟨by decide, by decide⟩, by decide⟩

/-- C4, at the failing input: `1.0.0+-` is accepted by the parser, its base
`1.0.0+` is not, and `Less` then panics on the nil base version instead of
returning a boolean. -/
theorem Less_panics_on_unparseable_base :
    ∃ a b : Version,
      parseAll (strs ["1.0.0+-", "1.0.0"]) = some [a, b] ∧
      extractBaseAndSuffix a.Original = Except.ok ("1.0.0+".toList, 0) ∧
      NewVersion "1.0.0+".toList = none ∧
      Less [a, b] 0 1 = Except.error Panic.nilDereference ∧
      Less [a, b] 1 0 = Except.error Panic.nilDereference :=
  ⟨⟨1, 0, 0, [], "-".toList, "1.0.0+-".toList⟩, ⟨1, 0, 0, [], [], "1.0.0".toList⟩,
   by decide, by decide, by decide, by decide, by decide⟩

/-- C5 (as amended). For every version string that is not empty, does not start
with a hyphen and has no line break, `extractBaseAndSuffix` returns, and its
suffix number is the integer value of the last dot-separated token of the text
after the first hyphen when that text contains a dot and the token is numeric;
it is 0 when there is no hyphen, when the text after it has no dot, or when the
last token is not numeric. -/
theorem extractBaseAndSuffix_suffix_number (version : GoString)
    (hne : version ≠ []) (hh : version.head? ≠ some '-') (hnl : '\n' ∉ version) :
    extractBaseAndSuffix version =
      Except.ok (version.takeWhile (fun c => c != '-'),
        if '.' ∈ textAfterFirstHyphen version then specSuffixNumber version else 0) := by
  unfold extractBaseAndSuffix
  rw [findBaseAndSuffix_of_no_newline hne hh hnl]
  simp only [suffixNumOf_eq, specSuffixNumber]

/-- C5, witness: `1.0.0-rc.10` has suffix number 10. -/
theorem extractBaseAndSuffix_suffix_number_witness :
    extractBaseAndSuffix "1.0.0-rc.10".toList = Except.ok ("1.0.0".toList, 10) :=
  extractBaseAndSuffix_suffix_number "1.0.0-rc.10".toList (by decide) (by decide) (by decide)

/-- C5, counterexample: for `1.0.0-5` the last token of the suffix is `5`, but the
suffix number returned is 0. -/
theorem single_token_suffix_refuted :
    ¬ ∀ (version base : GoString) (n : Int),
      extractBaseAndSuffix version = Except.ok (base, n) → n = specSuffixNumber version := by
  intro h
  have h1 := h "1.0.0-5".toList "1.0.0".toList 0 (by decide)
  revert h1
  decide


/-- C6. For every pair of versions whose base strings parse and compare non-zero,
`Less(i, j)` returns true iff the base of `i` compares below the base of `j`,
whatever the two suffix numbers are. -/
theorem Less_base_precedence (s : modifiedSemverCollection) (i j : Nat)
    (vi vj : Version) (baseI baseJ : GoString) (nI nJ : Int) (bI bJ : Version)
    (hi : s.get? i = some vi) (hj : s.get? j = some vj)
    (ei : extractBaseAndSuffix vi.Original = Except.ok (baseI, nI))
    (ej : extractBaseAndSuffix vj.Original = Except.ok (baseJ, nJ))
    (hbI : NewVersion baseI = some bI) (hbJ : NewVersion baseJ = some bJ)
    (hc : bI.Compare bJ ≠ 0) :
    Less s i j = Except.ok (decide (bI.Compare bJ < 0)) := by
  rw [Less_of_bases hi hj ei ej hbI hbJ, if_pos hc]

/-- C6, witness: `Less("1.9.9", "2.0.0")` is true and `Less("2.0.0", "1.9.9")` is
false. -/
theorem Less_base_precedence_witness :
    Less (forceParse (strs ["1.9.9", "2.0.0"])) 0 1 = Except.ok true ∧
    Less (forceParse (strs ["2.0.0", "1.9.9"])) 0 1 = Except.ok false :=
  ⟨Less_base_precedence (forceParse (strs ["1.9.9", "2.0.0"])) 0 1
      ⟨1, 9, 9, [], [], "1.9.9".toList⟩ ⟨2, 0, 0, [], [], "2.0.0".toList⟩
      "1.9.9".toList "2.0.0".toList 0 0
      ⟨1, 9, 9, [], [], "1.9.9".toList⟩ ⟨2, 0, 0, [], [], "2.0.0".toList⟩
      (by decide) (by decide) (by decide) (by decide) (by decide) (by decide) (by decide),
   Less_base_precedence (forceParse (strs ["2.0.0", "1.9.9"])) 0 1
      ⟨2, 0, 0, [], [], "2.0.0".toList⟩ ⟨1, 9, 9, [], [], "1.9.9".toList⟩
      "2.0.0".toList "1.9.9".toList 0 0
      ⟨2, 0, 0, [], [], "2.0.0".toList⟩ ⟨1, 9, 9, [], [], "1.9.9".toList⟩
      (by decide) (by decide) (by decide) (by decide) (by decide) (by decide) (by decide)⟩

/-- C7. For every pair of versions whose base strings parse and compare equal,
`Less(i, j)` returns true iff the suffix number of `i` is smaller than that of
`j` as integers; and sorting the parsed `1.0.0-rc.2`, `1.0.0-rc.10`, `1.0.0-rc.1`
with any sort that meets the contract yields `1.0.0-rc.1`, `1.0.0-rc.2`,
`1.0.0-rc.10`. -/
theorem Less_suffix_tie_break :
    (∀ (s : modifiedSemverCollection) (i j : Nat)
      (vi vj : Version) (baseI baseJ : GoString) (nI nJ : Int) (bI bJ : Version),
      s.get? i = some vi → s.get? j = some vj →
      extractBaseAndSuffix vi.Original = Except.ok (baseI, nI) →
      extractBaseAndSuffix vj.Original = Except.ok (baseJ, nJ) →
      NewVersion baseI = some bI → NewVersion baseJ = some bJ →
      bI.Compare bJ = 0 →
      Less s i j = Except.ok (decide (nI < nJ))) ∧
    (∀ input out : modifiedSemverCollection,
      parseAll (strs ["1.0.0-rc.2", "1.0.0-rc.10", "1.0.0-rc.1"]) = some input →
      IsSortResult input out →
      originals out = strs ["1.0.0-rc.1", "1.0.0-rc.2", "1.0.0-rc.10"]) := by
  constructor
  · intro s i j vi vj baseI baseJ nI nJ bI bJ hi hj ei ej hbI hbJ hc
    rw [Less_of_bases hi hj ei ej hbI hbJ, if_neg (not_not.2 hc)]
  · intro input out hin hout
    have hi := forceParse_of_parseAll hin
    subst hi
    exact rc_sorted_permutations out (mem_permutations_of_sort_result hout) hout.2

/-- C7, witness: `1.0.0-rc.2` against `1.0.0-rc.10` (2 < 10 as integers), and the
sorted sequence of the three tags. -/
theorem Less_suffix_tie_break_witness :
    Less (forceParse (strs ["1.0.0-rc.2", "1.0.0-rc.10"])) 0 1 = Except.ok true ∧
    originals (forceParse (strs ["1.0.0-rc.1", "1.0.0-rc.2", "1.0.0-rc.10"])) =
      strs ["1.0.0-rc.1", "1.0.0-rc.2", "1.0.0-rc.10"] :=
  ⟨Less_suffix_tie_break.1 (forceParse (strs ["1.0.0-rc.2", "1.0.0-rc.10"])) 0 1
      ⟨1, 0, 0, "rc.2".toList, [], "1.0.0-rc.2".toList⟩
      ⟨1, 0, 0, "rc.10".toList, [], "1.0.0-rc.10".toList⟩
      "1.0.0".toList "1.0.0".toList 2 10
      ⟨1, 0, 0, [], [], "1.0.0".toList⟩ ⟨1, 0, 0, [], [], "1.0.0".toList⟩
      (by decide) (by decide) (by decide) (by decide) (by decide) (by decide) (by decide),
   Less_suffix_tie_break.2
      (forceParse (strs ["1.0.0-rc.2", "1.0.0-rc.10", "1.0.0-rc.1"]))
      (forceParse (strs ["1.0.0-rc.1", "1.0.0-rc.2", "1.0.0-rc.10"]))
      (by decide) ⟨by decide, by decide⟩⟩

/-- C8, at the failing input: the parsed tags `1.0` and `1.0.0` compare equal under
semver comparison and `1.0` is lexically the smaller string, so a lexical
tie-break on the original strings would make `Less(0, 1)` true; the code
compares the suffix numbers 0 and 0 instead and returns false in both
directions, leaving the tie unbroken. -/
theorem Less_lexical_tie_not_broken :
    ∃ a b : Version,
      parseAll (strs ["1.0", "1.0.0"]) = some [a, b] ∧
      a.Compare b = 0 ∧
      strLt a.Original b.Original = true ∧
      extractBaseAndSuffix a.Original = Except.ok ("1.0".toList, 0) ∧
      extractBaseAndSuffix b.Original = Except.ok ("1.0.0".toList, 0) ∧
      Less [a, b] 0 1 = Except.ok false ∧ Less [a, b] 1 0 = Except.ok false :=
  ⟨⟨1, 0, 0, [], [], "1.0".toList⟩, ⟨1, 0, 0, [], [], "1.0.0".toList⟩,
   by decide, by decide, by decide, by decide, by decide, by decide, by decide⟩

/-- C9. `Less` is transitive: when `Less(i, j)` and `Less(j, k)` both return true,
`Less(i, k)` returns true. -/
theorem Less_transitive (s : modifiedSemverCollection) (i j k : Nat)
    (hij : Less s i j = Except.ok true) (hjk : Less s j k = Except.ok true) :
    Less s i k = Except.ok true := by
  obtain ⟨vi, vj, hi, hj, h1⟩ := Less_ok_iff.1 hij
  obtain ⟨vj', vk, hj', hk, h2⟩ := Less_ok_iff.1 hjk
  rw [hj] at hj'
  obtain rfl := Option.some.inj hj'
  rw [Less_eq_lessVersions hi hk]
  obtain ⟨baseI, nI, baseJ, nJ, bI, bJ, ei, ej, hbI, hbJ, k1⟩ := lessVersions_true_iff.1 h1
  obtain ⟨baseJ', nJ', baseK, nK, bJ', bK, ej', ek, hbJ', hbK, k2⟩ := lessVersions_true_iff.1 h2
  rw [ej] at ej'
  simp only [Except.ok.injEq, Prod.mk.injEq] at ej'
  obtain ⟨rfl, rfl⟩ := ej'
  rw [hbJ] at hbJ'
  obtain rfl := Option.some.inj hbJ'
  exact lessVersions_true_iff.2 ⟨baseI, nI, baseK, nK, bI, bK, ei, ek, hbI, hbK, keyLt_trans k1 k2⟩


/-- C9, witness: `1.0.0-rc.1`, `1.0.0-rc.2`, `1.1.0`. -/
theorem Less_transitive_witness :
    Less (forceParse (strs ["1.0.0-rc.1", "1.0.0-rc.2", "1.1.0"])) 0 2 = Except.ok true :=
  Less_transitive (forceParse (strs ["1.0.0-rc.1", "1.0.0-rc.2", "1.1.0"])) 0 1 2
    (by decide) (by decide)

/-- C10. `Less` is consistent: when `Less(i, j)` returns true, `Less(j, i)` returns
false, so the two are never both true; and `Less(i, i)` returns false for every
version whose base string parses. -/
theorem Less_consistent (s : modifiedSemverCollection) (i j : Nat) :
    (Less s i j = Except.ok true → Less s j i = Except.ok false) ∧
    (∀ (vi : Version) (baseI : GoString) (nI : Int) (bI : Version),
      s.get? i = some vi →
      extractBaseAndSuffix vi.Original = Except.ok (baseI, nI) →
      NewVersion baseI = some bI →
      Less s i i = Except.ok false) := by
  constructor
  · intro hij
    obtain ⟨vi, vj, hi, hj, h1⟩ := Less_ok_iff.1 hij
    obtain ⟨baseI, nI, baseJ, nJ, bI, bJ, ei, ej, hbI, hbJ, k1⟩ := lessVersions_true_iff.1 h1
    rw [Less_of_bases hj hi ej ei hbJ hbI]
    have hk := keyLt_asymm k1
    cases hr : (if bJ.Compare bI ≠ 0 then decide (bJ.Compare bI < 0) else decide (nJ < nI)) with
    | false => rfl
    | true =>
      exfalso
      apply hk
      have h2 : lessVersions vj vi = Except.ok true := by
        rw [lessVersions_of_bases ej ei hbJ hbI, hr]
      obtain ⟨baseJ', nJ', baseI', nI', bJ', bI', ej', ei', hbJ', hbI', k2⟩ :=
        lessVersions_true_iff.1 h2
      rw [ej] at ej'; rw [ei] at ei'
      simp only [Except.ok.injEq, Prod.mk.injEq] at ej' ei'
      obtain ⟨rfl, rfl⟩ := ej'
      obtain ⟨rfl, rfl⟩ := ei'
      rw [hbJ] at hbJ'; rw [hbI] at hbI'
      obtain rfl := Option.some.inj hbJ'
      obtain rfl := Option.some.inj hbI'
      exact k2
  · intro vi baseI nI bI hi ei hbI
    have pI := NewVersion_pre_nil hbI (hyphen_not_mem_base ei)
    rw [Less_of_bases hi hi ei ei hbI hbI,
      Compare_of_coreEq_pre_nil ⟨rfl, rfl, rfl⟩ pI pI]
    simp

/-- C10, witness: `1.0.0-rc.1` and `1.0.0-rc.2`. -/
theorem Less_consistent_witness :
    Less (forceParse (strs ["1.0.0-rc.1", "1.0.0-rc.2"])) 1 0 = Except.ok false ∧
    Less (forceParse (strs ["1.0.0-rc.1", "1.0.0-rc.2"])) 0 0 = Except.ok false :=
  ⟨(Less_consistent (forceParse (strs ["1.0.0-rc.1", "1.0.0-rc.2"])) 0 1).1 (by decide),
   (Less_consistent (forceParse (strs ["1.0.0-rc.1", "1.0.0-rc.2"])) 0 1).2
      ⟨1, 0, 0, "rc.1".toList, [], "1.0.0-rc.1".toList⟩ "1.0.0".toList 1
      ⟨1, 0, 0, [], [], "1.0.0".toList⟩ (by decide) (by decide) (by decide)⟩

/-! ## Further lemmas on `Less` as the order of the sort key -/

theorem baseCompare_eq_decide_keyLt {bI bJ : Version} (nI nJ : Int)
    (pI : bI.pre = []) (pJ : bJ.pre = []) :
    (if bI.Compare bJ ≠ 0 then decide (bI.Compare bJ < 0) else decide (nI < nJ)) =
      decide (keyLt bI nI bJ nJ) := by
  rcases coreLt_trichotomy bI bJ with hl | he | hg
  · have hk : keyLt bI nI bJ nJ := Or.inl hl
    rw [Compare_of_coreLt hl, decide_eq_true hk]
    rfl
  · rw [Compare_of_coreEq_pre_nil he pI pJ]
    have hiff : keyLt bI nI bJ nJ ↔ nI < nJ := by
      unfold keyLt coreLt coreEq at *
      omega
    simp [hiff]
  · have hk : ¬ keyLt bI nI bJ nJ := by
      unfold keyLt coreLt coreEq at *
      omega
    rw [Compare_of_coreGt hg, decide_eq_false hk]
    rfl

theorem Less_eq_decide_keyLt {s : modifiedSemverCollection} {i j : Nat} {vi vj : Version}
    {baseI baseJ : GoString} {nI nJ : Int} {bI bJ : Version}
    (hi : s.get? i = some vi) (hj : s.get? j = some vj)
    (ei : extractBaseAndSuffix vi.Original = Except.ok (baseI, nI))
    (ej : extractBaseAndSuffix vj.Original = Except.ok (baseJ, nJ))
    (hbI : NewVersion baseI = some bI) (hbJ : NewVersion baseJ = some bJ) :
    Less s i j = Except.ok (decide (keyLt bI nI bJ nJ)) := by
  rw [Less_of_bases hi hj ei ej hbI hbJ,
    baseCompare_eq_decide_keyLt nI nJ (NewVersion_pre_nil hbI (hyphen_not_mem_base ei))
      (NewVersion_pre_nil hbJ (hyphen_not_mem_base ej))]

theorem Less_ok_data {s : modifiedSemverCollection} {i j : Nat} {r : Bool}
    (h : Less s i j = Except.ok r) :
    ∃ vi vj baseI nI baseJ nJ bI bJ,
      s.get? i = some vi ∧ s.get? j = some vj ∧
      extractBaseAndSuffix vi.Original = Except.ok (baseI, nI) ∧
      extractBaseAndSuffix vj.Original = Except.ok (baseJ, nJ) ∧
      NewVersion baseI = some bI ∧ NewVersion baseJ = some bJ := by
  obtain ⟨vi, vj, hi, hj, hl⟩ := Less_ok_iff.1 h
  obtain ⟨baseI, nI, baseJ, nJ, bI, bJ, ei, ej, hbI, hbJ, -⟩ := lessVersions_ok_iff.1 hl
  exact ⟨vi, vj, baseI, nI, baseJ, nJ, bI, bJ, hi, hj, ei, ej, hbI, hbJ⟩

theorem extractBaseAndSuffix_no_hyphen {version base : GoString} {n : Int}
    (hh : '-' ∉ version) (h : extractBaseAndSuffix version = Except.ok (base, n)) :
    base = version ∧ n = 0 := by
  obtain ⟨m2, hf, hn⟩ := extractBaseAndSuffix_ok_iff.1 h
  have hall : ∀ x ∈ version, (fun c : Char => c != '-') x = true := by
    intro x hx
    have : x ≠ '-' := fun e => hh (e ▸ hx)
    simpa using this
  have htw : version.takeWhile (fun c => c != '-') = version :=
    List.takeWhile_eq_self_iff.2 hall
  have hdw : version.dropWhile (fun c => c != '-') = [] :=
    List.dropWhile_eq_nil_iff.2 hall
  unfold findBaseAndSuffix at hf
  rw [htw, hdw] at hf
  split_ifs at hf
  simp only [Option.some.injEq, Prod.mk.injEq] at hf
  obtain ⟨hb, hm⟩ := hf
  refine ⟨hb.symm, ?_⟩
  rw [hn, ← hm]
  rfl

/-- C11. The equivalence induced by `Less` is transitive: when neither `Less(i, j)`
nor `Less(j, i)`, and neither `Less(j, k)` nor `Less(k, j)` (each returning
false, which needs the base strings to parse), then `Less(i, k)` and
`Less(k, i)` both return false. -/
theorem Less_incomparable_transitive (s : modifiedSemverCollection) (i j k : Nat)
    (hij : Less s i j = Except.ok false) (hji : Less s j i = Except.ok false)
    (hjk : Less s j k = Except.ok false) (hkj : Less s k j = Except.ok false) :
    Less s i k = Except.ok false ∧ Less s k i = Except.ok false := by
  obtain ⟨vi, vj, baseI, nI, baseJ, nJ, bI, bJ, hi, hj, ei, ej, hbI, hbJ⟩ := Less_ok_data hij
  obtain ⟨vj', vk, baseJ', nJ', baseK, nK, bJ', bK, hj', hk, ej', ek, hbJ', hbK⟩ :=
    Less_ok_data hjk
  rw [Less_eq_decide_keyLt hi hj ei ej hbI hbJ] at hij
  rw [Less_eq_decide_keyLt hj hi ej ei hbJ hbI] at hji
  rw [Less_eq_decide_keyLt hj' hk ej' ek hbJ' hbK] at hjk
  rw [Less_eq_decide_keyLt hk hj ek ej hbK hbJ] at hkj
  rw [hj] at hj'
  obtain rfl := Option.some.inj hj'
  rw [ej] at ej'
  simp only [Except.ok.injEq, Prod.mk.injEq] at ej'
  obtain ⟨rfl, rfl⟩ := ej'
  rw [hbJ] at hbJ'
  obtain rfl := Option.some.inj hbJ'
  rw [Less_eq_decide_keyLt hi hk ei ek hbI hbK, Less_eq_decide_keyLt hk hi ek ei hbK hbI]
  simp only [Except.ok.injEq, decide_eq_false_iff_not] at hij hji hjk hkj ⊢
  unfold keyLt coreLt coreEq at *
  omega

/-- C11, witness: `1.0.0-alpha`, `1.0.0` and `v1.0.0-beta` are pairwise tied. -/
theorem Less_incomparable_transitive_witness :
    Less (forceParse (strs ["1.0.0-alpha", "1.0.0", "v1.0.0-beta"])) 0 2 = Except.ok false ∧
    Less (forceParse (strs ["1.0.0-alpha", "1.0.0", "v1.0.0-beta"])) 2 0 = Except.ok false :=
  Less_incomparable_transitive (forceParse (strs ["1.0.0-alpha", "1.0.0", "v1.0.0-beta"]))
    0 1 2 (by decide) (by decide) (by decide) (by decide)

/-- C12. For every version `a` whose `Original` has no hyphen and every version `b`
whose base compares equal to the base of `a` and whose suffix number is
positive, `Less(a, b)` returns true and `Less(b, a)` returns false: the form
without suffix has suffix number 0 and sorts first. -/
theorem Less_no_suffix_first (s : modifiedSemverCollection) (i j : Nat)
    (a b : Version) (baseA baseB : GoString) (nA nB : Int) (bA bB : Version)
    (hi : s.get? i = some a) (hj : s.get? j = some b)
    (hh : '-' ∉ a.Original)
    (ea : extractBaseAndSuffix a.Original = Except.ok (baseA, nA))
    (eb : extractBaseAndSuffix b.Original = Except.ok (baseB, nB))
    (hbA : NewVersion baseA = some bA) (hbB : NewVersion baseB = some bB)
    (hc : bA.Compare bB = 0) (hpos : 0 < nB) :
    baseA = a.Original ∧ nA = 0 ∧
    Less s i j = Except.ok true ∧ Less s j i = Except.ok false := by
  obtain ⟨hbase, hn⟩ := extractBaseAndSuffix_no_hyphen hh ea
  have he := Compare_zero_imp_coreEq hc
  refine ⟨hbase, hn, ?_, ?_⟩
  · rw [Less_eq_decide_keyLt hi hj ea eb hbA hbB]
    simp only [Except.ok.injEq, decide_eq_true_eq]
    exact Or.inr ⟨he, by omega⟩
  · rw [Less_eq_decide_keyLt hj hi eb ea hbB hbA]
    simp only [Except.ok.injEq, decide_eq_false_iff_not]
    unfold keyLt coreLt coreEq at *
    omega

/-- C12, witness: `Less("1.0.0", "1.0.0-rc.1")` is true and the converse is false. -/
theorem Less_no_suffix_first_witness :
    Less (forceParse (strs ["1.0.0", "1.0.0-rc.1"])) 0 1 = Except.ok true ∧
    Less (forceParse (strs ["1.0.0", "1.0.0-rc.1"])) 1 0 = Except.ok false :=
  (Less_no_suffix_first (forceParse (strs ["1.0.0", "1.0.0-rc.1"])) 0 1
    ⟨1, 0, 0, [], [], "1.0.0".toList⟩ ⟨1, 0, 0, "rc.1".toList, [], "1.0.0-rc.1".toList⟩
    "1.0.0".toList "1.0.0".toList 0 1
    ⟨1, 0, 0, [], [], "1.0.0".toList⟩ ⟨1, 0, 0, [], [], "1.0.0".toList⟩
    (by decide) (by decide) (by decide) (by decide) (by decide) (by decide) (by decide)
    (by decide) (by decide)).2.2

/-! ## Lemmas on when `extractBaseAndSuffix` returns -/

theorem findBaseAndSuffix_some {version : GoString}
    (hne : version ≠ []) (hh : version.head? ≠ some '-') :
    findBaseAndSuffix version =
      some (version.takeWhile (fun c => c != '-'),
        (textAfterFirstHyphen version).takeWhile (fun c => c != '\n')) := by
  unfold findBaseAndSuffix textAfterFirstHyphen
  have h1 : (version.takeWhile (fun c => c != '-')).isEmpty = false := by
    cases version with
    | nil => exact absurd rfl hne
    | cons c r =>
      have hc : c ≠ '-' := by
        intro e
        apply hh
        simp [e]
      simp [List.takeWhile_cons, hc]
  rw [h1]
  simp only [Bool.false_eq_true, if_false, Option.some.injEq, Prod.mk.injEq, true_and]
  cases version.dropWhile (fun c => c != '-') with
  | nil => rfl
  | cons c rest => rfl

theorem findBaseAndSuffix_none {version : GoString}
    (h : version = [] ∨ version.head? = some '-') : findBaseAndSuffix version = none := by
  rcases h with rfl | h
  · rfl
  · cases version with
    | nil => simp at h
    | cons c r =>
      simp only [List.head?_cons, Option.some.injEq] at h
      subst h
      simp [findBaseAndSuffix, List.takeWhile_cons]

theorem dropWhile_ne_hyphen_cases (s : GoString) :
    s.dropWhile (fun c => c != '-') = [] ∨
      ∃ rest, s.dropWhile (fun c => c != '-') = '-' :: rest := by
  induction s with
  | nil => exact Or.inl rfl
  | cons c r ih =>
    by_cases hc : c = '-'
    · subst hc
      exact Or.inr ⟨r, by simp [List.dropWhile_cons]⟩
    · have hd : (c :: r).dropWhile (fun c => c != '-') =
          r.dropWhile (fun c => c != '-') := by
        simp [List.dropWhile_cons, hc]
      rw [hd]
      exact ih

theorem takeWhile_ne_hyphen_not_mem (s : GoString) :
    '-' ∉ s.takeWhile (fun c => c != '-') := by
  intro hm
  have := List.mem_takeWhile_imp hm
  simp at this

theorem NewVersion_head {orig : GoString} {v : Version} (h : NewVersion orig = some v) :
    ∃ c r, orig = c :: r ∧ (c = 'v' ∨ isNum c = true) := by
  obtain ⟨m, hm, -⟩ := NewVersion_some h
  unfold matchVersion at hm
  split_ifs at hm with he
  cases orig with
  | nil => simp [stripV] at he
  | cons c r =>
    refine ⟨c, r, rfl, ?_⟩
    by_cases hc : c = 'v'
    · exact Or.inl hc
    · right
      by_contra hn
      apply he
      simp [stripV, hc, List.takeWhile_cons, hn]

theorem NewVersion_extract_ok {orig : GoString} {v : Version}
    (h : NewVersion orig = some v) :
    ∃ base n, extractBaseAndSuffix orig = Except.ok (base, n) := by
  obtain ⟨c, r, rfl, hc⟩ := NewVersion_head h
  have hh : (c :: r).head? ≠ some '-' := by
    simp only [List.head?_cons, ne_eq, Option.some.injEq]
    rintro rfl
    rcases hc with hc | hc
    · exact absurd hc (by decide)
    · exact absurd hc (by decide)
  unfold extractBaseAndSuffix
  rw [findBaseAndSuffix_some (List.cons_ne_nil c r) hh]
  exact ⟨_, _, rfl⟩

/-! ## The claims, continued -/

/-- C13. For every non-empty version string that does not start with a hyphen,
`extractBaseAndSuffix` returns, and its base is exactly the text before the
first hyphen, or the whole string when there is no hyphen; the base never
contains a hyphen. -/
theorem extractBaseAndSuffix_base_spec (version : GoString)
    (hne : version ≠ []) (hh : version.head? ≠ some '-') :
    ∃ base n, extractBaseAndSuffix version = Except.ok (base, n) ∧
      '-' ∉ base ∧
      (('-' ∉ version ∧ base = version) ∨ (∃ suffix, version = base ++ '-' :: suffix)) := by
  refine ⟨version.takeWhile (fun c => c != '-'),
    suffixNumOf ((textAfterFirstHyphen version).takeWhile (fun c => c != '\n')), ?_,
    takeWhile_ne_hyphen_not_mem version, ?_⟩
  · unfold extractBaseAndSuffix
    rw [findBaseAndSuffix_some hne hh]
  · have hsplit := List.takeWhile_append_dropWhile (fun c => c != '-') version
    rcases dropWhile_ne_hyphen_cases version with hd | ⟨rest, hd⟩
    · left
      rw [hd, List.append_nil] at hsplit
      rw [hsplit]
      exact ⟨fun hm => takeWhile_ne_hyphen_not_mem version (hsplit.symm ▸ hm), rfl⟩
    · right
      rw [hd] at hsplit
      exact ⟨rest, hsplit.symm⟩

/-- C13, witness: the bases of `1.2.3-rc.4-x` and of `1.2.3`. -/
theorem extractBaseAndSuffix_base_spec_witness :
    (∃ base n, extractBaseAndSuffix "1.2.3-rc.4-x".toList = Except.ok (base, n) ∧
      '-' ∉ base ∧
      (('-' ∉ "1.2.3-rc.4-x".toList ∧ base = "1.2.3-rc.4-x".toList) ∨
        (∃ suffix, "1.2.3-rc.4-x".toList = base ++ '-' :: suffix))) ∧
    extractBaseAndSuffix "1.2.3-rc.4-x".toList = Except.ok ("1.2.3".toList, 0) ∧
    extractBaseAndSuffix "1.2.3".toList = Except.ok ("1.2.3".toList, 0) :=
  ⟨extractBaseAndSuffix_base_spec "1.2.3-rc.4-x".toList (by decide) (by decide),
   by decide, by decide⟩

/-- C14. For every collection and every two in-range indices `i` and `j`,
`Swap(i, j)` leaves the element formerly at `i` in slot `j` and the element
formerly at `j` in slot `i`, leaves every other slot unchanged, and leaves `Len`
unchanged. -/
theorem Swap_exchanges (s : modifiedSemverCollection) (i j : Nat)
    (hi : i < Len s) (hj : j < Len s) :
    ∃ t, Swap s i j = Except.ok t ∧
      t.get? j = s.get? i ∧ t.get? i = s.get? j ∧
      (∀ k, k ≠ i → k ≠ j → t.get? k = s.get? k) ∧
      Len t = Len s := by
  unfold Len at *
  obtain ⟨vi, hvi⟩ : ∃ vi, s.get? i = some vi := ⟨s.get ⟨i, hi⟩, List.get?_eq_get hi⟩
  obtain ⟨vj, hvj⟩ : ∃ vj, s.get? j = some vj := ⟨s.get ⟨j, hj⟩, List.get?_eq_get hj⟩
  refine ⟨(s.set i vj).set j vi, ?_, ?_, ?_, ?_, ?_⟩
  · unfold Swap
    rw [hvi, hvj]
  · rw [hvi, List.get?_eq_getElem?, List.getElem?_set_self (by simpa using hj)]
  · rw [hvj, List.get?_eq_getElem?]
    by_cases hij : j = i
    · subst hij
      rw [hvi] at hvj
      rw [List.getElem?_set_self (by simpa using hi), hvj]
    · rw [List.getElem?_set_ne hij, List.getElem?_set_self hi]
  · intro k hki hkj
    rw [List.get?_eq_getElem?, List.get?_eq_getElem?,
      List.getElem?_set_ne (Ne.symm hkj), List.getElem?_set_ne (Ne.symm hki)]
  · simp

/-- C14, witness: swapping slots 0 and 2 of three parsed tags. -/
theorem Swap_exchanges_witness :
    Swap (forceParse (strs ["1.0.0", "1.1.0", "1.2.0"])) 0 2 =
      Except.ok (forceParse (strs ["1.2.0", "1.1.0", "1.0.0"])) ∧
    (∃ t, Swap (forceParse (strs ["1.0.0", "1.1.0", "1.2.0"])) 0 2 = Except.ok t ∧
      t.get? 2 = (forceParse (strs ["1.0.0", "1.1.0", "1.2.0"])).get? 0 ∧
      t.get? 0 = (forceParse (strs ["1.0.0", "1.1.0", "1.2.0"])).get? 2 ∧
      (∀ k, k ≠ 0 → k ≠ 2 → t.get? k = (forceParse (strs ["1.0.0", "1.1.0", "1.2.0"])).get? k) ∧
      Len t = Len (forceParse (strs ["1.0.0", "1.1.0", "1.2.0"]))) :=
  ⟨by decide,
   Swap_exchanges (forceParse (strs ["1.0.0", "1.1.0", "1.2.0"])) 0 2 (by decide) (by decide)⟩

/-- C15. `extractBaseAndSuffix` reads a number only from a trailing `.n` of the
suffix: for every version string (not empty, not starting with a hyphen) whose
text after the first hyphen contains no dot, it returns the suffix number 0,
even when that text consists only of digits. -/
theorem extractBaseAndSuffix_no_dot_zero (version : GoString)
    (hne : version ≠ []) (hh : version.head? ≠ some '-')
    (hd : '.' ∉ textAfterFirstHyphen version) :
    extractBaseAndSuffix version =
      Except.ok (version.takeWhile (fun c => c != '-'), 0) := by
  unfold extractBaseAndSuffix
  rw [findBaseAndSuffix_some hne hh]
  have hd2 : '.' ∉ (textAfterFirstHyphen version).takeWhile (fun c => c != '\n') :=
    fun hm => hd ((List.takeWhile_sublist _).subset hm)
  simp only [suffixNumOf_eq, hd2, if_false]

/-- C15, witness: `1.0.0-5` gives the base `1.0.0` and the suffix number 0. -/
theorem extractBaseAndSuffix_no_dot_zero_witness :
    extractBaseAndSuffix "1.0.0-5".toList = Except.ok ("1.0.0".toList, 0) :=
  extractBaseAndSuffix_no_dot_zero "1.0.0-5".toList (by decide) (by decide) (by decide)

/-- C16. For every pair of versions whose base strings parse, the re-parsed bases
carry no pre-release part, and `Less(i, j)` returns the strict lexicographic
comparison of (major, minor, patch, suffix number) of `i` against that of `j`,
with major, minor and patch those of the re-parsed base. -/
theorem Less_is_lexicographic (s : modifiedSemverCollection) (i j : Nat)
    (vi vj : Version) (baseI baseJ : GoString) (nI nJ : Int) (bI bJ : Version)
    (hi : s.get? i = some vi) (hj : s.get? j = some vj)
    (ei : extractBaseAndSuffix vi.Original = Except.ok (baseI, nI))
    (ej : extractBaseAndSuffix vj.Original = Except.ok (baseJ, nJ))
    (hbI : NewVersion baseI = some bI) (hbJ : NewVersion baseJ = some bJ) :
    bI.pre = [] ∧ bJ.pre = [] ∧
    Less s i j = Except.ok (decide
      (bI.major < bJ.major ∨ (bI.major = bJ.major ∧
        (bI.minor < bJ.minor ∨ (bI.minor = bJ.minor ∧
          (bI.patch < bJ.patch ∨ (bI.patch = bJ.patch ∧ nI < nJ))))))) := by
  refine ⟨NewVersion_pre_nil hbI (hyphen_not_mem_base ei),
    NewVersion_pre_nil hbJ (hyphen_not_mem_base ej), ?_⟩
  rw [Less_eq_decide_keyLt hi hj ei ej hbI hbJ]
  congr 1
  apply decide_eq_decide.2
  unfold keyLt coreLt coreEq
  omega

/-- C16, witness: `1.2-rc.7` against `1.2.0-rc.10`; the absent patch of the base
`1.2` reads as 0, and the suffix numbers 7 < 10 decide. -/
theorem Less_is_lexicographic_witness :
    Less (forceParse (strs ["1.2-rc.7", "1.2.0-rc.10"])) 0 1 = Except.ok true :=
  (Less_is_lexicographic (forceParse (strs ["1.2-rc.7", "1.2.0-rc.10"])) 0 1
    ⟨1, 2, 0, "rc.7".toList, [], "1.2-rc.7".toList⟩
    ⟨1, 2, 0, "rc.10".toList, [], "1.2.0-rc.10".toList⟩
    "1.2".toList "1.2.0".toList 7 10
    ⟨1, 2, 0, [], [], "1.2".toList⟩ ⟨1, 2, 0, [], [], "1.2.0".toList⟩
    (by decide) (by decide) (by decide) (by decide) (by decide) (by decide)).2.2

/-- C17. `extractBaseAndSuffix` fails, with an index out of range on `matches[1]`,
exactly when the input string is empty or starts with a hyphen, and returns a
base and a suffix number for every other string. Every string accepted by the
semver parser starts with `v` or a digit, so on parsed versions at valid
indices both extractions of `Less` return and `Less` does not fail with an
index out of range. -/
theorem extractBaseAndSuffix_fails_iff :
    (∀ version : GoString,
      extractBaseAndSuffix version = Except.error Panic.indexOutOfRange ↔
        (version = [] ∨ version.head? = some '-')) ∧
    (∀ version : GoString, ¬ (version = [] ∨ version.head? = some '-') →
      ∃ base n, extractBaseAndSuffix version = Except.ok (base, n)) ∧
    (∀ (orig : GoString) (v : Version), NewVersion orig = some v →
      ∃ c r, orig = c :: r ∧ (c = 'v' ∨ isNum c = true)) ∧
    (∀ (s : modifiedSemverCollection) (i j : Nat) (vi vj : Version),
      s.get? i = some vi → s.get? j = some vj →
      NewVersion vi.Original = some vi → NewVersion vj.Original = some vj →
      (∃ baseI nI, extractBaseAndSuffix vi.Original = Except.ok (baseI, nI)) ∧
      (∃ baseJ nJ, extractBaseAndSuffix vj.Original = Except.ok (baseJ, nJ)) ∧
      Less s i j ≠ Except.error Panic.indexOutOfRange) := by
  have hret : ∀ version : GoString, ¬ (version = [] ∨ version.head? = some '-') →
      ∃ base n, extractBaseAndSuffix version = Except.ok (base, n) := by
    intro version h
    have hne : version ≠ [] := fun e => h (Or.inl e)
    have hh : version.head? ≠ some '-' := fun e => h (Or.inr e)
    unfold extractBaseAndSuffix
    rw [findBaseAndSuffix_some hne hh]
    exact ⟨_, _, rfl⟩
  refine ⟨?_, hret, fun orig v h => NewVersion_head h, ?_⟩
  · intro version
    constructor
    · intro herr
      by_contra hn
      obtain ⟨base, n, hok⟩ := hret version hn
      rw [hok] at herr
      cases herr
    · intro h
      unfold extractBaseAndSuffix
      rw [findBaseAndSuffix_none h]
  · intro s i j vi vj hi hj pi pj
    obtain ⟨baseI, nI, ei⟩ := NewVersion_extract_ok pi
    obtain ⟨baseJ, nJ, ej⟩ := NewVersion_extract_ok pj
    refine ⟨⟨baseI, nI, ei⟩, ⟨baseJ, nJ, ej⟩, ?_⟩
    rw [Less_eq_lessVersions hi hj]
    unfold lessVersions
    rw [ei, ej]
    simp only
    cases NewVersion baseI with
    | none => simp
    | some bI =>
      cases NewVersion baseJ with
      | none => simp
      | some bJ =>
        simp only
        split_ifs <;> simp

/-- C17, witness: the empty string and `-rc.1` fail, `1.0.0-rc.1` does not, and
`Less` on the parsed `1.0.0+-` and `1.0.0` fails otherwise than with an index
out of range. -/
theorem extractBaseAndSuffix_fails_iff_witness :
    extractBaseAndSuffix [] = Except.error Panic.indexOutOfRange ∧
    extractBaseAndSuffix "-rc.1".toList = Except.error Panic.indexOutOfRange ∧
    (∃ base n, extractBaseAndSuffix "1.0.0-rc.1".toList = Except.ok (base, n)) ∧
    Less (forceParse (strs ["1.0.0+-", "1.0.0"])) 0 1 ≠ Except.error Panic.indexOutOfRange :=
  ⟨(extractBaseAndSuffix_fails_iff.1 []).2 (Or.inl rfl),
   (extractBaseAndSuffix_fails_iff.1 "-rc.1".toList).2 (Or.inr (by decide)),
   extractBaseAndSuffix_fails_iff.2.1 "1.0.0-rc.1".toList (by decide),
   (extractBaseAndSuffix_fails_iff.2.2.2 (forceParse (strs ["1.0.0+-", "1.0.0"])) 0 1
      ⟨1, 0, 0, [], "-".toList, "1.0.0+-".toList⟩ ⟨1, 0, 0, [], [], "1.0.0".toList⟩
      (by decide) (by decide) (by decide) (by decide)).2.2⟩

/-- C18. The suffix number can be negative: `1.0.0-rc.-5` is accepted by the semver
parser, its last suffix token `-5` is read by `Atoi` as -5, and that version is
`Less` than the version `1.0.0` of the same base. -/
theorem suffix_number_negative :
    ∃ a b : Version,
      parseAll (strs ["1.0.0-rc.-5", "1.0.0"]) = some [a, b] ∧
      Atoi "-5".toList = some (-5) ∧
      extractBaseAndSuffix a.Original = Except.ok ("1.0.0".toList, -5) ∧
      extractBaseAndSuffix b.Original = Except.ok ("1.0.0".toList, 0) ∧
      Less [a, b] 0 1 = Except.ok true ∧ Less [a, b] 1 0 = Except.ok false :=
  ⟨⟨1, 0, 0, "rc.-5".toList, [], "1.0.0-rc.-5".toList⟩, ⟨1, 0, 0, [], [], "1.0.0".toList⟩,
   by decide, by decide, by decide, by decide, by decide, by decide⟩

end ModifiedSemver
